import Mathlib

/-!
# Verification of the wubraglib core

A shallow embedding of the wubraglib repository (a RAG indexing core:
document collection, syntax-aware chunking, cosine-similarity search),
with theorems settling the specification claims about it.

Modelling conventions:

* Rust `String` / `&str` values are modelled as `List Char`.  Lengths are
  therefore character counts; for the ASCII inputs used in all concrete
  witnesses this coincides with Rust's byte lengths.
* SHA-256 (`sha2::Sha256`) is modelled as an injective content address:
  an ID is the pair of byte-strings fed to the hasher (`update` calls).
  Two IDs are equal in the model exactly when the hashed inputs are equal
  (the standard collision-freeness idealisation).  For chunk IDs the first
  component is a fixed-width 32-byte digest in the real code, so the
  concatenation hashed there is injectively determined by the pair.
* tree-sitter is an external library; its parse / query results are
  modelled as an oracle parameter (`TSOutcome`): a parse failure, or for a
  successful parse the list of query captures (each with its source span,
  node kind, and whether its parent is a top-level construct).  The code
  of `chunk_with_treesitter` downstream of those results is embedded
  faithfully.
* `f32` is modelled by `F`: an exact rational, `inf`/`ninf`, or `nan`,
  with IEEE-style propagation.  Finite results of `add`/`mul`/`div` pass
  through `fround`, which applies the exact IEEE single-precision
  overflow threshold (magnitude at least `2^128 - 2^103` rounds to a
  signed infinity) and underflow-to-zero threshold (magnitude at most
  `2^-150` rounds to zero); strictly between the thresholds the exact
  rational is kept.  Precision rounding and signed zero are not
  modelled: precision loss alone never turns a finite nonzero value into
  a zero, an infinity, or a NaN, which is all the theorems below depend
  on (its only effect near the thresholds is a half-ulp shift of where
  they fire).  `F.sqrt` applies no threshold (the square root of a
  positive finite `f32` value neither overflows nor underflows); it is
  the exact square root on perfect-square rationals, a floor-square-root
  approximation elsewhere, and the theorems use it only through exact
  values or through its zero-ness.
* A Rust panic is modelled explicitly where a claim is about it:
  `cosine` returns `none` on the out-of-bounds read its loop performs when
  the second vector is shorter, and `Index.retrieve` returns
  `RetrieveOutcome.panicked` on an out-of-range slice index.
* `rayon`'s `par_sort_unstable_by` guarantees only that the slice ends up
  sorted by the comparator; it is not stable.  `search` is therefore
  modelled as a relation on outputs (`Index.SearchResult`): any sorted
  permutation of the scored list, truncated to `k`, is an admissible
  result.
-/

namespace Wubrag

/-! ## Characters and whitespace

`isRustWhitespace` is Rust's `char::is_whitespace`, i.e. the Unicode
White_Space property, enumerated by code point. -/

def isRustWhitespace (c : Char) : Bool :=
  let n := c.toNat
  n == 0x09 || n == 0x0A || n == 0x0B || n == 0x0C || n == 0x0D || n == 0x20 ||
  n == 0x85 || n == 0xA0 || n == 0x1680 || (0x2000 ≤ n && n ≤ 0x200A) ||
  n == 0x2028 || n == 0x2029 || n == 0x202F || n == 0x205F || n == 0x3000

/-- Rust `str::trim_start`. -/
def trimStart (l : List Char) : List Char :=
  l.dropWhile isRustWhitespace

/-- Rust `str::trim_end`. -/
def trimEnd (l : List Char) : List Char :=
  (l.reverse.dropWhile isRustWhitespace).reverse

/-- Rust `str::trim`: leading and trailing whitespace removed. -/
def trim (l : List Char) : List Char :=
  trimEnd (trimStart l)

/-! ## Content addressing (src/document.rs, src/chunking.rs)

`compute_document_id` and `compute_chunk_id` both feed two byte-strings
into SHA-256; under the injective-hash idealisation an ID is that pair. -/

abbrev DocumentID := List Char × List Char

/-- `compute_document_id` (document.rs): `Hash(path_bytes ∥ content_bytes)`. -/
def compute_document_id (path : List Char) (content : List Char) : DocumentID :=
  (path, content)

abbrev ChunkID := DocumentID × List Char

/-- `compute_chunk_id` (chunking.rs): `Hash(doc_id ∥ chunk_text_bytes)`. -/
def compute_chunk_id (doc_id : DocumentID) (chunk_text : List Char) : ChunkID :=
  (doc_id, chunk_text)

/-! ## Data model -/

/-- `Document` (document.rs). -/
structure Document where
  id : DocumentID
  path : List Char
  text : List Char
  ext : List Char
  size : ℕ
deriving DecidableEq

/-- `Chunk` (chunking.rs). -/
structure Chunk where
  id : ChunkID
  doc_id : DocumentID
  text : List Char
  chunk_type : String
  char_count : ℕ
deriving DecidableEq

/-- The key set of `LANGUAGE_MAP` (chunking.rs): extensions with a
registered tree-sitter grammar. -/
def languageExts : List (List Char) :=
  ["rs".toList, "cpp".toList, "hpp".toList, "c".toList,
   "h".toList, "js".toList, "py".toList, "cu".toList]

/-! ## Naive chunking (chunking.rs, `naive_chunk_document`) -/

/-- Rust `doc_text.split("\n\n")`: split on each non-overlapping,
leftmost-first occurrence of two consecutive newlines. -/
def splitParas : List Char → List (List Char)
  | [] => [[]]
  | '\n' :: '\n' :: rest => [] :: splitParas rest
  | c :: rest =>
    match splitParas rest with
    | [] => [[c]]
    | h :: t => (c :: h) :: t

/-- `naive_chunk_document` (chunking.rs): one "paragraph" chunk per
segment with non-whitespace content, else a single "document" fallback
chunk over the whole (trimmed) text. -/
def naive_chunk_document (doc_text : List Char) (doc_id : DocumentID) : List Chunk :=
  let chunks : List Chunk :=
    ((splitParas doc_text).filter (fun p => !(trim p).isEmpty)).map (fun para =>
      { id := compute_chunk_id doc_id para
        doc_id := doc_id
        text := para
        chunk_type := "paragraph"
        char_count := para.length })
  if chunks.isEmpty then
    [{ id := compute_chunk_id doc_id doc_text
       doc_id := doc_id
       text := trim doc_text
       chunk_type := "document"
       char_count := doc_text.length }]
  else
    chunks

/-! ## Structured chunking (chunking.rs, `chunk_with_treesitter`) -/

/-- One tree-sitter query capture: the node's source span
(`node.utf8_text`), its `node.kind()`, and whether its immediate parent
is `source_file` / `module` / `program`. -/
structure TSMatch where
  rawText : List Char
  kind : String
  topLevel : Bool
deriving DecidableEq

/-- The captures produced by the two compiled queries of one parsed
document; `none` models an absent query string or a `Query::new` failure
(that query then contributes no chunks). -/
structure TSQueries where
  containerMatches : Option (List TSMatch)
  functionMatches : Option (List TSMatch)
deriving DecidableEq

/-- The per-capture loop body of `chunk_with_treesitter`: skip captures
that are not top-level, skip captures whose trimmed span is empty, emit a
chunk for each survivor (`id` hashes the raw span, `text` stores the
trimmed span, `char_count` is the raw span's length). -/
def emitQueryChunks (doc : Document) (ms : List TSMatch) : List Chunk :=
  (ms.filter (fun m => m.topLevel && !(trim m.rawText).isEmpty)).map (fun m =>
    { id := compute_chunk_id doc.id m.rawText
      doc_id := doc.id
      text := trim m.rawText
      chunk_type := m.kind
      char_count := m.rawText.length })

/-- `chunk_with_treesitter` (chunking.rs) after a successful parse:
container-query chunks, then function-query chunks, then the single
"document" fallback chunk if both queries produced nothing. -/
def chunk_with_treesitter (doc : Document) (q : TSQueries) : List Chunk :=
  let cs :=
    emitQueryChunks doc (q.containerMatches.getD []) ++
    emitQueryChunks doc (q.functionMatches.getD [])
  if cs.isEmpty then
    [{ id := compute_chunk_id doc.id doc.text
       doc_id := doc.id
       text := trim doc.text
       chunk_type := "document"
       char_count := doc.text.length }]
  else
    cs

/-- The tree-sitter oracle for one document: either the parser returned
`None` (fall back to naive chunking) or it produced a tree whose two
queries yield the given captures. -/
inductive TSOutcome where
  | parseFailed
  | parsed (q : TSQueries)
deriving DecidableEq

/-- `chunk_document` (chunking.rs): dispatch on whether `doc.ext` has a
registered grammar; unknown extensions and parse failures use the naive
splitter. -/
def chunk_document (doc : Document) (ts : TSOutcome) : List Chunk :=
  if doc.ext ∈ languageExts then
    match ts with
    | .parseFailed => naive_chunk_document doc.text doc.id
    | .parsed q => chunk_with_treesitter doc q
  else
    naive_chunk_document doc.text doc.id

/-! ## The float model

`F` models `f32`: an exact rational, a signed infinity, or NaN.
Rounding and signed zero are outside the model (see the header comment);
NaN propagation, comparison semantics, and zero/sign case analysis follow
IEEE 754 (and hence Rust `f32` arithmetic). -/

inductive F where
  | fin (q : ℚ)
  | inf
  | ninf
  | nan
deriving DecidableEq

/-- Floor integer square root, structurally recursive (so that concrete
witnesses evaluate inside the kernel). -/
def natSqrtLin : ℕ → ℕ
  | 0 => 0
  | n + 1 =>
    let r := natSqrtLin n
    if (r + 1) * (r + 1) ≤ n + 1 then r + 1 else r

/-- Exact square root on perfect-square rationals (the only inputs on
which the theorems below use its value); the floor-square-root
approximation elsewhere.  It is zero exactly on zero (for nonnegative
input), which is the only other fact the proofs use. -/
def ratSqrt (q : ℚ) : ℚ :=
  (natSqrtLin q.num.toNat : ℚ) / (natSqrtLin q.den : ℚ)

/-- IEEE single-precision range reduction, applied to every finite
`add`/`mul`/`div` result.  Round-to-nearest-even overflows to ±infinity
exactly when the exact result's magnitude reaches `2^128 - 2^103` (the
midpoint above the largest finite `f32`, ties-to-even rounding up), and
rounds to zero exactly when the magnitude is at most `2^-150` (half the
smallest subnormal, ties-to-even rounding down).  Both thresholds here
are those exact IEEE bounds; strictly between them the exact rational is
kept (precision rounding is not modelled — precision loss alone never
turns a finite nonzero value into a zero, an infinity, or a NaN, which
is all the theorems below depend on). -/
def fround (q : ℚ) : F :=
  if q = 0 then F.fin 0
  else if 2 ^ 128 - 2 ^ 103 ≤ q then F.inf
  else if q ≤ -(2 ^ 128 - 2 ^ 103) then F.ninf
  else if -(1 / 2 ^ 150) ≤ q ∧ q ≤ 1 / 2 ^ 150 then F.fin 0
  else F.fin q

namespace F

/-- `f32` addition (`+=` in the cosine loop); finite results pass
through the IEEE range reduction `fround`. -/
def add : F → F → F
  | fin a, fin b => fround (a + b)
  | fin _, inf => inf
  | inf, fin _ => inf
  | inf, inf => inf
  | fin _, ninf => ninf
  | ninf, fin _ => ninf
  | ninf, ninf => ninf
  | inf, ninf => nan
  | ninf, inf => nan
  | _, _ => nan

/-- `f32` multiplication; finite results pass through the IEEE range
reduction `fround` (so squaring a large value overflows to `inf` and
squaring a tiny value underflows to zero, as in `f32`). -/
def mul : F → F → F
  | fin a, fin b => fround (a * b)
  | fin a, inf => if a = 0 then nan else if 0 < a then inf else ninf
  | inf, fin a => if a = 0 then nan else if 0 < a then inf else ninf
  | fin a, ninf => if a = 0 then nan else if 0 < a then ninf else inf
  | ninf, fin a => if a = 0 then nan else if 0 < a then ninf else inf
  | inf, inf => inf
  | inf, ninf => ninf
  | ninf, inf => ninf
  | ninf, ninf => inf
  | _, _ => nan

/-- `f32` division.  `0 / 0 = nan`; a nonzero finite numerator over zero
is a signed infinity (the model has one zero, Rust's `-0.0` is out of
scope — unreachable in `cosine`, whose denominator is a product of square
roots). -/
def div : F → F → F
  | fin a, fin b =>
    if b = 0 then (if a = 0 then nan else if 0 < a then inf else ninf)
    else fround (a / b)
  | fin _, inf => fin 0
  | fin _, ninf => fin 0
  | inf, fin b => if 0 ≤ b then inf else ninf
  | ninf, fin b => if 0 ≤ b then ninf else inf
  | inf, inf => nan
  | inf, ninf => nan
  | ninf, inf => nan
  | ninf, ninf => nan
  | _, _ => nan

/-- `f32::sqrt`: NaN on negative input.  No range reduction is applied:
the square root of a positive finite `f32` value neither overflows nor
underflows (its magnitude lies within `[2^-75, 2^64]`). -/
def sqrt : F → F
  | fin a => if a < 0 then nan else fin (ratSqrt a)
  | inf => inf
  | ninf => nan
  | nan => nan

/-- `f32` `<=`: false whenever either side is NaN. -/
def ble : F → F → Bool
  | nan, _ => false
  | _, nan => false
  | ninf, _ => true
  | fin _, ninf => false
  | fin a, fin b => decide (a ≤ b)
  | fin _, inf => true
  | inf, inf => true
  | inf, _ => false

/-- `f32::partial_cmp`: `none` exactly when either side is NaN (the
`Option` whose `unwrap` the search comparator calls). -/
def pcmp (x y : F) : Option Ordering :=
  match x, y with
  | nan, _ => none
  | _, nan => none
  | x, y => some (if ble x y then (if ble y x then .eq else .lt) else .gt)

end F

/-! ## Cosine similarity and the index (src/indexing.rs) -/

/-- The body of `cosine`'s loop over `i in 0..a.len()`, accumulating
`(dot, na, nb)`; the pairs are `(a[i], b[i])`. -/
def cosineLoop (ps : List (F × F)) : F × F × F :=
  ps.foldl
    (fun acc p =>
      (acc.1.add (p.1.mul p.2), acc.2.1.add (p.1.mul p.1), acc.2.2.add (p.2.mul p.2)))
    (F.fin 0, F.fin 0, F.fin 0)

/-- `cosine` (indexing.rs): `dot / (na.sqrt() * nb.sqrt())` over the
first `a.length` coordinates.  The loop indexes `b[i]` for every
`i < a.length`, so a shorter `b` is an out-of-bounds panic, modelled as
`none`. -/
def cosine (a b : List F) : Option F :=
  if a.length ≤ b.length then
    let s := cosineLoop (a.zip b)
    some (s.1.div ((F.sqrt s.2.1).mul (F.sqrt s.2.2)))
  else
    none

/-- `Index` (indexing.rs).  The private `HashMap<ChunkID, usize>` is
modelled as its association pairs. -/
structure Index where
  chunks : List Chunk
  embeddings : List (List F)
  id_to_idx : List (ChunkID × ℕ)

/-- `Index::new`: build `id_to_idx` by enumeration and store both vectors
as given — the constructor performs no validation of any kind. -/
def Index.new (chunks : List Chunk) (embeddings : List (List F)) : Index :=
  { chunks := chunks
    embeddings := embeddings
    id_to_idx := chunks.enum.map (fun p => (p.2.id, p.1)) }

/-- The parallel map step of `search`: score every embedding against the
query (order-preserving, as `par_iter().enumerate()` is indexed); a panic
in any `cosine` call aborts the whole call. -/
def scoreAll (q : List F) : List (List F) → Option (List F)
  | [] => some []
  | e :: es =>
    match cosine q e, scoreAll q es with
    | some s, some ss => some (s :: ss)
    | _, _ => none

/-- The `(i, cosine(query, emb))` list built by `search` before sorting. -/
def Index.scored (idx : Index) (q : List F) : Option (List (ℕ × F)) :=
  (scoreAll q idx.embeddings).map List.enum

/-- Sorted according to `search`'s comparator
`|a, b| b.1.partial_cmp(&a.1).unwrap()`: each adjacent pair of scores is
non-increasing under the `f32` order (false on NaN). -/
def SortedDesc (L : List (ℕ × F)) : Prop :=
  L.Chain' (fun x y => F.ble y.2 x.2 = true)

instance (L : List (ℕ × F)) : Decidable (SortedDesc L) :=
  inferInstanceAs (Decidable (List.Chain' _ L))

/-- The contract of `search` (indexing.rs): `par_sort_unstable_by`
guarantees only that the scored list ends up in some order sorted by the
comparator — it is an unstable sort — and `truncate(k)` keeps the first
`k` entries.  `L` is an admissible return value of `search(q, k)` iff it
is the `k`-prefix of a sorted permutation of the scored list. -/
def Index.SearchResult (idx : Index) (q : List F) (k : ℕ) (L : List (ℕ × F)) : Prop :=
  ∃ S P, idx.scored q = some S ∧ S.Perm P ∧ SortedDesc P ∧ L = P.take k

/-- `search` cannot hit the comparator's `unwrap` panic: scoring
succeeded and every comparison the sort could perform on the scored
entries is defined (`partial_cmp` never `None`). -/
def Index.SearchSafe (idx : Index) (q : List F) : Prop :=
  ∃ S, idx.scored q = some S ∧ ∀ x ∈ S, ∀ y ∈ S, F.pcmp x.2 y.2 ≠ none

/-! ## Retrieval and errors (src/indexing.rs, src/error.rs) -/

/-- `RAGError` (error.rs), payloads modelled structurally (`io::Error`
and message strings as an abstract code / character list). -/
inductive RAGError where
  | Io (code : ℕ)
  | FileRead (path : List Char) (code : ℕ)
  | InvalidUtf8 (path : List Char)
  | ParsingFailed (extension : List Char)
  | ModelInit (msg : List Char)
  | Embedding (msg : List Char)
  | Serialization (msg : List Char)
  | Deserialization (msg : List Char)
  | EmptyEmbeddings
  | DimensionMismatch (expected got : ℕ)
  | InvalidIndex (idx : ℕ)
  | NoChunks (doc_id : DocumentID)
deriving DecidableEq

/-- The observable outcome of `Index::retrieve`: a chunk, a Rust panic,
or a returned `RAGError` (the last is never produced by the code — its
signature `&Chunk` has no error channel — but is needed to state what the
spec claims). -/
inductive RetrieveOutcome where
  | found (c : Chunk)
  | panicked
  | failed (e : RAGError)
deriving DecidableEq

/-- `Index::retrieve` (indexing.rs): `&self.chunks[idx]`, a direct slice
index — out of range is the slice's index-out-of-bounds panic. -/
def Index.retrieve (idx : Index) (i : ℕ) : RetrieveOutcome :=
  match idx.chunks.get? i with
  | some c => .found c
  | none => .panicked

/-! ## Document collection (src/document.rs) -/

/-- One `jwalk` directory entry as `load_document` observes it: its file
type, the root-relative path (`strip_prefix` result), the final path
component (all `Path::extension` reads), the `read_to_string` outcome
(`none` for any read failure, including non-UTF-8 content), and the
`metadata` outcome (the file size). -/
structure DirEntry where
  isFile : Bool
  relPath : List Char
  fileName : List Char
  content : Option (List Char)
  meta : Option ℕ
deriving DecidableEq

/-- `normalized_path_for_id` (document.rs): backslashes become forward
slashes. -/
def normalized_path_for_id (relative : List Char) : List Char :=
  relative.map (fun c => if c = '\\' then '/' else c)

/-- Rust `Path::extension` on the final path component: the portion after
the last `'.'`, unless there is no `'.'` or the only `'.'` is the leading
character (`".gitignore"` has no extension). -/
def pathExtension (name : List Char) : Option (List Char) :=
  let afterRev := name.reverse.takeWhile (fun c => c != '.')
  if afterRev.length = name.length then
    none
  else if afterRev.length + 1 = name.length then
    none
  else
    some afterRev.reverse

/-- `load_document` (document.rs): skip non-files; skip unreadable or
non-UTF-8 files; `ext` is `extension().and_then(to_str).unwrap_or("")`
with no case normalisation; skip files whose metadata read fails. -/
def load_document (entry : DirEntry) : Option Document :=
  if !entry.isFile then
    none
  else
    let relative_str := normalized_path_for_id entry.relPath
    match entry.content with
    | none => none
    | some text =>
      let ext := (pathExtension entry.fileName).getD []
      let id := compute_document_id relative_str text
      match entry.meta with
      | none => none
      | some size =>
        some { id := id, path := relative_str, text := text, ext := ext, size := size }

/-- One item of the `WalkDir` iterator: an entry, or an error item (what
`jwalk` yields, e.g., for a nonexistent root). -/
inductive WalkEntry where
  | ok (entry : DirEntry)
  | err
deriving DecidableEq

/-- `grab_all_documents` (document.rs), as a function of the walk items:
`entry.ok()?` silently discards error items, `load_document` filters the
rest.  The function's return type is `Vec<Document>` — it has no error
channel at all. -/
def grab_all_documents (walk : List WalkEntry) : List Document :=
  walk.filterMap (fun we =>
    match we with
    | .err => none
    | .ok entry => load_document entry)

/-! ## Helper lemmas: trimming -/

theorem dropWhile_dropWhile (p : Char → Bool) (l : List Char) :
    (l.dropWhile p).dropWhile p = l.dropWhile p := by
  induction l with
  | nil => rfl
  | cons a t ih =>
    cases h : p a with
    | true =>
      rw [List.dropWhile_cons_of_pos h]
      exact ih
    | false =>
      rw [List.dropWhile_cons_of_neg (by simp [h]), List.dropWhile_cons_of_neg (by simp [h])]

theorem trimStart_trimStart (l : List Char) : trimStart (trimStart l) = trimStart l :=
  dropWhile_dropWhile _ _

theorem trimEnd_trimEnd (l : List Char) : trimEnd (trimEnd l) = trimEnd l := by
  unfold trimEnd
  rw [List.reverse_reverse, dropWhile_dropWhile]

theorem trimEnd_decomp (m : List Char) :
    ∃ s, m = trimEnd m ++ s ∧ ∀ c ∈ s, isRustWhitespace c = true := by
  refine ⟨(m.reverse.takeWhile isRustWhitespace).reverse, ?_, ?_⟩
  · conv_lhs => rw [← m.reverse_reverse]
    conv_lhs => rw [← List.takeWhile_append_dropWhile (p := isRustWhitespace) (l := m.reverse)]
    rw [List.reverse_append]
    rfl
  · intro c hc
    rw [List.mem_reverse] at hc
    exact List.mem_takeWhile_imp hc

theorem trimStart_eq_self_head {m : List Char} (h : trimStart m = m) :
    ∀ c u, m = c :: u → isRustWhitespace c = false := by
  intro c u hm
  subst hm
  cases hw : isRustWhitespace c with
  | false => rfl
  | true =>
    exfalso
    rw [trimStart, List.dropWhile_cons_of_pos hw] at h
    have hlen : (u.dropWhile isRustWhitespace).length ≤ u.length :=
      (List.dropWhile_sublist _).length_le
    have := congrArg List.length h
    simp at this
    omega

theorem trimStart_trimEnd {m : List Char} (h : trimStart m = m) :
    trimStart (trimEnd m) = trimEnd m := by
  obtain ⟨s, hdecomp, _⟩ := trimEnd_decomp m
  cases hte : trimEnd m with
  | nil => simp [trimStart]
  | cons c u =>
    have hm : m = c :: (u ++ s) := by
      rw [hdecomp, hte]
      simp
    have hc : isRustWhitespace c = false := trimStart_eq_self_head h c (u ++ s) hm
    rw [trimStart, List.dropWhile_cons_of_neg (by simp [hc])]

theorem trim_trim (l : List Char) : trim (trim l) = trim l := by
  unfold trim
  rw [trimStart_trimEnd (trimStart_trimStart l), trimEnd_trimEnd]

/-! ## Helper lemmas: chunk emission -/

/-- Every chunk the naive splitter emits: its id hashes an untrimmed
span whose trim agrees with the chunk text's trim, and `char_count` is
that span's length. -/
theorem naive_chunk_spans {t : List Char} {did : DocumentID} {c : Chunk}
    (h : c ∈ naive_chunk_document t did) :
    ∃ s, c.id = compute_chunk_id did s ∧ trim s = trim c.text ∧
      c.char_count = s.length ∧ c.doc_id = did := by
  simp only [naive_chunk_document] at h
  split at h
  · rw [List.mem_singleton] at h
    subst h
    exact ⟨t, rfl, (trim_trim t).symm, rfl, rfl⟩
  · obtain ⟨para, _, hc⟩ := List.mem_map.mp h
    subst hc
    exact ⟨para, rfl, rfl, rfl, rfl⟩

/-- Every chunk emitted for a tree-sitter query's captures hashes the
capture's raw span and stores its trim. -/
theorem emitQueryChunks_spans {doc : Document} {ms : List TSMatch} {c : Chunk}
    (h : c ∈ emitQueryChunks doc ms) :
    ∃ s, c.id = compute_chunk_id doc.id s ∧ trim s = trim c.text ∧
      c.char_count = s.length ∧ c.doc_id = doc.id := by
  obtain ⟨m, _, hc⟩ := List.mem_map.mp h
  subst hc
  exact ⟨m.rawText, rfl, (trim_trim m.rawText).symm, rfl, rfl⟩

/-- Every chunk of the structured path hashes an untrimmed span. -/
theorem treesitter_chunk_spans {doc : Document} {q : TSQueries} {c : Chunk}
    (h : c ∈ chunk_with_treesitter doc q) :
    ∃ s, c.id = compute_chunk_id doc.id s ∧ trim s = trim c.text ∧
      c.char_count = s.length ∧ c.doc_id = doc.id := by
  simp only [chunk_with_treesitter] at h
  split at h
  · rw [List.mem_singleton] at h
    subst h
    exact ⟨doc.text, rfl, (trim_trim doc.text).symm, rfl, rfl⟩
  · rcases List.mem_append.mp h with h' | h'
    · exact emitQueryChunks_spans h'
    · exact emitQueryChunks_spans h'

/-- Non-whitespace-only text of every chunk, given the document itself is
not whitespace-only: naive path. -/
theorem naive_chunk_text_ne_nil {t : List Char} {did : DocumentID} {c : Chunk}
    (ht : trim t ≠ []) (h : c ∈ naive_chunk_document t did) :
    trim c.text ≠ [] := by
  simp only [naive_chunk_document] at h
  split at h
  · rw [List.mem_singleton] at h
    subst h
    rw [trim_trim]
    exact ht
  · obtain ⟨para, hpara, hc⟩ := List.mem_map.mp h
    subst hc
    have := (List.mem_filter.mp hpara).2
    simpa [List.isEmpty_iff] using this

/-- Non-whitespace-only text of every chunk, given the document itself is
not whitespace-only: structured path. -/
theorem treesitter_chunk_text_ne_nil {doc : Document} {q : TSQueries} {c : Chunk}
    (ht : trim doc.text ≠ []) (h : c ∈ chunk_with_treesitter doc q) :
    trim c.text ≠ [] := by
  simp only [chunk_with_treesitter] at h
  split at h
  · rw [List.mem_singleton] at h
    subst h
    rw [trim_trim]
    exact ht
  · have hemit : ∀ {ms : List TSMatch}, c ∈ emitQueryChunks doc ms → trim c.text ≠ [] := by
      intro ms hm
      obtain ⟨m, hmf, hc⟩ := List.mem_map.mp hm
      subst hc
      have := (List.mem_filter.mp hmf).2
      simp only [Bool.and_eq_true, Bool.not_eq_true'] at this
      rw [trim_trim]
      simpa [List.isEmpty_iff] using this.2
    rcases List.mem_append.mp h with h' | h'
    · exact hemit h'
    · exact hemit h'

/-! ## Concrete fixtures -/

/-- A plain-text document whose single paragraph `" x"` carries leading
whitespace. -/
def docSpaceX : Document :=
  { id := (['p'], ['x']), path := ['p'], text := " x".toList,
    ext := "txt".toList, size := 2 }

/-- The paragraph chunk the naive splitter emits for `docSpaceX`: its id
hashes the untrimmed span `" x"`, which is also stored untrimmed. -/
def chunkSpaceX : Chunk :=
  { id := ((['p'], ['x']), " x".toList), doc_id := (['p'], ['x']),
    text := " x".toList, chunk_type := "paragraph", char_count := 2 }

/-- A plain-text document with empty text. -/
def docEmptyTxt : Document :=
  { id := (['e'], []), path := ['e'], text := [], ext := "txt".toList, size := 0 }

/-! ## Claim C1 -/

/-- C1, counterexample.  The claim states `ChunkID = Hash(DocumentID ∥
trimmed chunk text)` with the trimmed text being the bytes stored in the
chunk's `text` field.  On the naive path the code hashes — and stores —
the untrimmed paragraph span: for the document with text `" x"` the
emitted chunk has `text = " x"` (not trimmed) and its id hashes `" x"`,
not the trimmed `"x"`. -/
theorem chunk_id_hashes_trimmed_text_counterexample :
    ∃ c ∈ chunk_document docSpaceX TSOutcome.parseFailed,
      ¬ (c.id = compute_chunk_id docSpaceX.id (trim c.text) ∧ c.text = trim c.text) := by
  decide

/-- C1, amended: every emitted chunk's id is
`Hash(doc.id ∥ untrimmed source span)` for a span whose trimmed form is
the chunk's trimmed text (and whose length is `char_count`); the hash
input is the raw span, not the trimmed bytes stored in `text`. -/
theorem chunk_id_hashes_raw_span (doc : Document) (ts : TSOutcome) (c : Chunk)
    (h : c ∈ chunk_document doc ts) :
    ∃ s, c.id = compute_chunk_id doc.id s ∧ trim s = trim c.text ∧
      c.char_count = s.length ∧ c.doc_id = doc.id := by
  unfold chunk_document at h
  split at h
  · cases ts with
    | parseFailed => exact naive_chunk_spans h
    | parsed q => exact treesitter_chunk_spans h
  · exact naive_chunk_spans h

/-- C1, witness for the amended theorem at a concrete chunk. -/
theorem chunk_id_hashes_raw_span_witness :
    chunkSpaceX ∈ chunk_document docSpaceX TSOutcome.parseFailed ∧
    ∃ s, chunkSpaceX.id = compute_chunk_id docSpaceX.id s ∧
      trim s = trim chunkSpaceX.text ∧
      chunkSpaceX.char_count = s.length ∧ chunkSpaceX.doc_id = docSpaceX.id :=
  ⟨by decide, chunk_id_hashes_raw_span docSpaceX TSOutcome.parseFailed chunkSpaceX (by decide)⟩

/-! ## Claim C2 -/

/-- C2: chunking is total.  For every document and every tree-sitter
outcome the chunk list is non-empty, and both the structured and the
naive path emit exactly the single `"document"` fallback chunk covering
the whole trimmed text whenever they would otherwise produce zero
chunks. -/
theorem chunking_is_total (doc : Document) (ts : TSOutcome) :
    chunk_document doc ts ≠ [] ∧
    (∀ q : TSQueries,
      emitQueryChunks doc (q.containerMatches.getD []) ++
        emitQueryChunks doc (q.functionMatches.getD []) = [] →
      chunk_with_treesitter doc q =
        [{ id := compute_chunk_id doc.id doc.text, doc_id := doc.id,
           text := trim doc.text, chunk_type := "document",
           char_count := doc.text.length }]) ∧
    ((splitParas doc.text).filter (fun p => !(trim p).isEmpty) = [] →
      naive_chunk_document doc.text doc.id =
        [{ id := compute_chunk_id doc.id doc.text, doc_id := doc.id,
           text := trim doc.text, chunk_type := "document",
           char_count := doc.text.length }]) := by
  refine ⟨?_, ?_, ?_⟩
  · have hnaive : ∀ (t : List Char) (did : DocumentID),
        naive_chunk_document t did ≠ [] := by
      intro t did
      simp only [naive_chunk_document]
      split
      · simp
      · next hne =>
        intro hnil
        rw [hnil] at hne
        simp at hne
    unfold chunk_document
    split
    · cases ts with
      | parseFailed => exact hnaive doc.text doc.id
      | parsed q =>
        simp only [chunk_with_treesitter]
        split
        · simp
        · next hne =>
          intro hnil
          rw [hnil] at hne
          simp at hne
    · exact hnaive doc.text doc.id
  · intro q hq
    simp [chunk_with_treesitter, hq]
  · intro hp
    simp [naive_chunk_document, hp]

/-- C2, witness: the empty plain-text document takes the naive path and
yields exactly the fallback chunk; the structured path with zero query
captures would do the same. -/
theorem chunking_is_total_witness :
    chunk_document docEmptyTxt TSOutcome.parseFailed ≠ [] ∧
    chunk_with_treesitter docEmptyTxt ⟨none, none⟩ =
      [{ id := compute_chunk_id docEmptyTxt.id docEmptyTxt.text, doc_id := docEmptyTxt.id,
         text := trim docEmptyTxt.text, chunk_type := "document",
         char_count := docEmptyTxt.text.length }] ∧
    naive_chunk_document docEmptyTxt.text docEmptyTxt.id =
      [{ id := compute_chunk_id docEmptyTxt.id docEmptyTxt.text, doc_id := docEmptyTxt.id,
         text := trim docEmptyTxt.text, chunk_type := "document",
         char_count := docEmptyTxt.text.length }] :=
  ⟨(chunking_is_total docEmptyTxt TSOutcome.parseFailed).1,
   (chunking_is_total docEmptyTxt TSOutcome.parseFailed).2.1 ⟨none, none⟩ (by decide),
   (chunking_is_total docEmptyTxt TSOutcome.parseFailed).2.2 (by decide)⟩

/-! ## Claim C3 -/

/-- C3, counterexample.  The claim states no chunk's text is empty or
whitespace-only.  An empty document yields the fallback `"document"`
chunk whose text is empty. -/
theorem chunk_text_nonempty_counterexample :
    ∃ c ∈ chunk_document docEmptyTxt TSOutcome.parseFailed, trim c.text = [] := by
  decide

/-- C3, amended: for every document that is not empty or whitespace-only,
every emitted chunk has non-empty trimmed text; only the fallback chunk
of a whitespace-only document is empty. -/
theorem chunk_text_nonempty (doc : Document) (ts : TSOutcome)
    (h : trim doc.text ≠ []) (c : Chunk) (hc : c ∈ chunk_document doc ts) :
    trim c.text ≠ [] := by
  unfold chunk_document at hc
  split at hc
  · cases ts with
    | parseFailed => exact naive_chunk_text_ne_nil h hc
    | parsed q => exact treesitter_chunk_text_ne_nil h hc
  · exact naive_chunk_text_ne_nil h hc

/-- C3, witness for the amended theorem. -/
theorem chunk_text_nonempty_witness :
    trim docSpaceX.text ≠ [] ∧
    chunkSpaceX ∈ chunk_document docSpaceX TSOutcome.parseFailed ∧
    trim chunkSpaceX.text ≠ [] :=
  ⟨by decide, by decide,
   chunk_text_nonempty docSpaceX TSOutcome.parseFailed (by decide) chunkSpaceX (by decide)⟩

/-! ## Helper lemmas: the float order and descending sorts -/

theorem F.ble_nan_right (x : F) : F.ble x F.nan = false := by
  cases x <;> rfl

theorem F.ble_total {x y : F} (hx : x ≠ F.nan) (hy : y ≠ F.nan) :
    F.ble x y = true ∨ F.ble y x = true := by
  cases x with
  | nan => exact absurd rfl hx
  | fin a =>
    cases y with
    | nan => exact absurd rfl hy
    | fin b => simpa [F.ble, decide_eq_true_eq] using le_total a b
    | inf => exact Or.inl rfl
    | ninf => exact Or.inr rfl
  | inf =>
    cases y with
    | nan => exact absurd rfl hy
    | fin b => exact Or.inr rfl
    | inf => exact Or.inl rfl
    | ninf => exact Or.inr rfl
  | ninf =>
    cases y with
    | nan => exact absurd rfl hy
    | fin b => exact Or.inl rfl
    | inf => exact Or.inl rfl
    | ninf => exact Or.inl rfl

theorem F.pcmp_ne_none {x y : F} (hx : x ≠ F.nan) (hy : y ≠ F.nan) :
    F.pcmp x y ≠ none := by
  cases x <;> cases y <;> first
    | exact absurd rfl hx
    | exact absurd rfl hy
    | simp [F.pcmp]

/-- Insertion into a list, keeping scores non-increasing (a reference
sort used only to exhibit sorted permutations; the code's own sort is
relational, see `Index.SearchResult`). -/
def insertDesc (x : ℕ × F) : List (ℕ × F) → List (ℕ × F)
  | [] => [x]
  | y :: ys => if F.ble y.2 x.2 then x :: y :: ys else y :: insertDesc x ys

def sortDesc : List (ℕ × F) → List (ℕ × F)
  | [] => []
  | x :: xs => insertDesc x (sortDesc xs)

theorem insertDesc_perm (x : ℕ × F) (l : List (ℕ × F)) :
    (insertDesc x l).Perm (x :: l) := by
  induction l with
  | nil => exact List.Perm.refl _
  | cons y ys ih =>
    simp only [insertDesc]
    split
    · exact List.Perm.refl _
    · exact (ih.cons y).trans (List.Perm.swap x y ys)

theorem sortDesc_perm (l : List (ℕ × F)) : (sortDesc l).Perm l := by
  induction l with
  | nil => exact List.Perm.refl _
  | cons x xs ih => exact (insertDesc_perm x (sortDesc xs)).trans (ih.cons x)

theorem insertDesc_head (x : ℕ × F) (l : List (ℕ × F)) :
    (insertDesc x l).head? = some x ∨ (insertDesc x l).head? = l.head? := by
  cases l with
  | nil => exact Or.inl rfl
  | cons y ys =>
    simp only [insertDesc]
    split
    · exact Or.inl rfl
    · exact Or.inr rfl

theorem insertDesc_sorted {x : ℕ × F} {l : List (ℕ × F)}
    (hx : x.2 ≠ F.nan) (hl : ∀ e ∈ l, e.2 ≠ F.nan) (h : SortedDesc l) :
    SortedDesc (insertDesc x l) := by
  induction l with
  | nil => simp [insertDesc, SortedDesc]
  | cons y ys ih =>
    have hy : y.2 ≠ F.nan := hl y (List.mem_cons_self y ys)
    have hys : ∀ e ∈ ys, e.2 ≠ F.nan := fun e he => hl e (List.mem_cons_of_mem y he)
    unfold SortedDesc at h
    rw [List.chain'_cons'] at h
    simp only [insertDesc]
    split
    · next hble =>
      unfold SortedDesc
      rw [List.chain'_cons]
      exact ⟨hble, List.chain'_cons'.mpr h⟩
    · next hble =>
      have hxy : F.ble x.2 y.2 = true := by
        rcases F.ble_total hy hx with h' | h'
        · exact absurd h' hble
        · exact h'
      unfold SortedDesc
      rw [List.chain'_cons']
      refine ⟨?_, ih hys h.2⟩
      intro z hz
      rcases insertDesc_head x ys with hh | hh
      · rw [hh, Option.mem_def, Option.some.injEq] at hz
        rw [← hz]
        exact hxy
      · rw [hh] at hz
        exact h.1 z hz

theorem sortDesc_sorted {l : List (ℕ × F)} (hl : ∀ e ∈ l, e.2 ≠ F.nan) :
    SortedDesc (sortDesc l) := by
  induction l with
  | nil => exact List.chain'_nil
  | cons x xs ih =>
    have hx : x.2 ≠ F.nan := hl x (List.mem_cons_self x xs)
    have hxs : ∀ e ∈ xs, e.2 ≠ F.nan := fun e he => hl e (List.mem_cons_of_mem x he)
    exact insertDesc_sorted hx
      (fun e he => hxs e ((sortDesc_perm xs).mem_iff.mp he)) (ih hxs)

/-- If no score is NaN, a sorted permutation of the scored list exists,
so `search` has an admissible result for every `k`. -/
theorem searchResult_exists {idx : Index} {q : List F} {S : List (ℕ × F)} (k : ℕ)
    (hS : idx.scored q = some S) (hn : ∀ p ∈ S, p.2 ≠ F.nan) :
    ∃ L, idx.SearchResult q k L :=
  ⟨(sortDesc S).take k, S, sortDesc S, hS, (sortDesc_perm S).symm, sortDesc_sorted hn, rfl⟩

theorem scoreAll_length {q : List F} {es : List (List F)} {ss : List F}
    (h : scoreAll q es = some ss) : ss.length = es.length := by
  induction es generalizing ss with
  | nil =>
    simp only [scoreAll, Option.some.injEq] at h
    simp [← h]
  | cons e es ih =>
    simp only [scoreAll] at h
    cases hc : cosine q e with
    | none => rw [hc] at h; cases h
    | some s =>
      cases hs : scoreAll q es with
      | none => rw [hc, hs] at h; cases h
      | some ss' =>
        rw [hc, hs] at h
        simp only [Option.some.injEq] at h
        rw [← h]
        simp [ih hs]

theorem scored_length {idx : Index} {q : List F} {S : List (ℕ × F)}
    (h : idx.scored q = some S) : S.length = idx.embeddings.length := by
  unfold Index.scored at h
  cases hs : scoreAll q idx.embeddings with
  | none => rw [hs] at h; cases h
  | some ss =>
    rw [hs] at h
    simp only [Option.map_some', Option.some.injEq] at h
    rw [← h, List.enum_length]
    exact scoreAll_length hs

/-! ## Claim C4 -/

/-- C4, counterexample.  The claim quantifies over every query vector,
but a zero query makes every score `0/0 = NaN`; the sort comparator's
`partial_cmp(..).unwrap()` then panics (in the model: no sorted
permutation of the scored list exists, so `search` has no result at
all), even though `k = n = 2`. -/
theorem search_total_counterexample :
    2 ≤ (Index.new [] [[F.fin 1], [F.fin 2]]).embeddings.length ∧
    ¬ ∃ L, (Index.new [] [[F.fin 1], [F.fin 2]]).SearchResult [F.fin 0] 2 L := by
  constructor
  · decide
  · rintro ⟨L, S, P, hS, hperm, hsort, -⟩
    have hcomp : (Index.new [] [[F.fin 1], [F.fin 2]]).scored [F.fin 0] =
        some [(0, F.nan), (1, F.nan)] := by
      norm_num [Index.scored, Index.new, scoreAll, cosine, cosineLoop, F.add, F.mul,
        F.div, F.sqrt, ratSqrt, natSqrtLin, fround, List.enum, List.enumFrom]
    rw [hcomp, Option.some.injEq] at hS
    subst hS
    have hplen : P.length = 2 := by simpa using hperm.length_eq.symm
    obtain ⟨a, b, hab⟩ := List.length_eq_two.mp hplen
    subst hab
    have ha : a ∈ [(0, F.nan), (1, F.nan)] := hperm.mem_iff.mpr (by simp)
    have ha2 : a.2 = F.nan := by
      rcases List.mem_cons.mp ha with h | h
      · rw [h]
      · rw [List.mem_singleton.mp h]
    have hR : F.ble b.2 a.2 = true := (List.chain'_cons.mp hsort).1
    rw [ha2, F.ble_nan_right] at hR
    cases hR

/-- C4, amended: provided no score is NaN (the scoring map succeeded and
produced NaN-free scores — e.g. nonzero-norm vectors of equal dimension),
`search(q, k)` has an admissible result, and every admissible result has
at most `k` entries, is sorted by non-increasing score, and for
`k ≥ n` is a permutation of all `n` scored entries (each stored entry
exactly once). -/
theorem search_topk (idx : Index) (q : List F) (k : ℕ) (S : List (ℕ × F))
    (hS : idx.scored q = some S) (hn : ∀ p ∈ S, p.2 ≠ F.nan) :
    (∃ L, idx.SearchResult q k L) ∧
    ∀ L, idx.SearchResult q k L →
      L.length ≤ k ∧ SortedDesc L ∧ (idx.embeddings.length ≤ k → L.Perm S) := by
  refine ⟨searchResult_exists k hS hn, ?_⟩
  rintro L ⟨S', P, hS', hperm, hsort, hL⟩
  rw [hS, Option.some.injEq] at hS'
  subst hS'
  subst hL
  refine ⟨?_, hsort.take k, ?_⟩
  · simp [List.length_take]
  · intro hk
    have hlen : P.length ≤ k := by
      have h1 := hperm.length_eq
      have h2 := scored_length hS
      omega
    rw [List.take_of_length_le hlen]
    exact hperm.symm

/-- C4, witness for the amended theorem: a 2-entry index queried with a
unit vector; both scores evaluate to 1. -/
theorem search_topk_witness :
    ((Index.new [] [[F.fin 1], [F.fin 2]]).scored [F.fin 1] =
      some [(0, F.fin 1), (1, F.fin 1)]) ∧
    (∃ L, (Index.new [] [[F.fin 1], [F.fin 2]]).SearchResult [F.fin 1] 2 L) ∧
    ∀ L, (Index.new [] [[F.fin 1], [F.fin 2]]).SearchResult [F.fin 1] 2 L →
      L.length ≤ 2 ∧ SortedDesc L ∧
      ((Index.new [] [[F.fin 1], [F.fin 2]]).embeddings.length ≤ 2 →
        L.Perm [(0, F.fin 1), (1, F.fin 1)]) := by
  have hsc : (Index.new [] [[F.fin 1], [F.fin 2]]).scored [F.fin 1] =
      some [(0, F.fin 1), (1, F.fin 1)] := by
    norm_num [Index.scored, Index.new, scoreAll, cosine, cosineLoop, F.add, F.mul,
      F.div, F.sqrt, ratSqrt, natSqrtLin, fround, List.enum, List.enumFrom]
  exact ⟨hsc,
    (search_topk (Index.new [] [[F.fin 1], [F.fin 2]]) [F.fin 1] 2
      [(0, F.fin 1), (1, F.fin 1)] hsc (by decide)).1,
    (search_topk (Index.new [] [[F.fin 1], [F.fin 2]]) [F.fin 1] 2
      [(0, F.fin 1), (1, F.fin 1)] hsc (by decide)).2⟩

/-! ## Claim C5 -/

/-- C5, counterexample.  The claim asserts equal-score entries appear in
original index order (stable sort).  The code sorts with
`par_sort_unstable_by`, whose contract permits either order of a tied
pair: for two identical embeddings the reversed-order list is an
admissible `search` result violating the claimed tie order. -/
theorem search_tie_order_counterexample :
    (Index.new [] [[F.fin 1], [F.fin 1]]).SearchResult [F.fin 1] 2
      [(1, F.fin 1), (0, F.fin 1)] ∧
    ¬ List.Pairwise (fun a b : ℕ × F => a.2 = b.2 → a.1 ≤ b.1)
      [(1, F.fin 1), (0, F.fin 1)] := by
  constructor
  · refine ⟨[(0, F.fin 1), (1, F.fin 1)], [(1, F.fin 1), (0, F.fin 1)], ?_,
      List.Perm.swap (1, F.fin 1) (0, F.fin 1) [], by simp [SortedDesc, F.ble], rfl⟩
    norm_num [Index.scored, Index.new, scoreAll, cosine, cosineLoop, F.add, F.mul,
      F.div, F.sqrt, ratSqrt, natSqrtLin, fround, List.enum, List.enumFrom]
  · decide

/-- C5, amended: the sort is unstable, so for a fixed index and query
with tied scores both relative orders are admissible results of the same
call — the full result list is not determined (ties carry no
original-index-order guarantee). -/
theorem search_tie_order_unstable :
    (Index.new [] [[F.fin 1], [F.fin 1]]).SearchResult [F.fin 1] 2
      [(0, F.fin 1), (1, F.fin 1)] ∧
    (Index.new [] [[F.fin 1], [F.fin 1]]).SearchResult [F.fin 1] 2
      [(1, F.fin 1), (0, F.fin 1)] ∧
    ([(0, F.fin 1), (1, F.fin 1)] : List (ℕ × F)) ≠ [(1, F.fin 1), (0, F.fin 1)] := by
  have hsc : (Index.new [] [[F.fin 1], [F.fin 1]]).scored [F.fin 1] =
      some [(0, F.fin 1), (1, F.fin 1)] := by
    norm_num [Index.scored, Index.new, scoreAll, cosine, cosineLoop, F.add, F.mul,
      F.div, F.sqrt, ratSqrt, natSqrtLin, fround, List.enum, List.enumFrom]
  exact ⟨⟨[(0, F.fin 1), (1, F.fin 1)], [(0, F.fin 1), (1, F.fin 1)], hsc,
      List.Perm.refl _, by simp [SortedDesc, F.ble], rfl⟩,
    ⟨[(0, F.fin 1), (1, F.fin 1)], [(1, F.fin 1), (0, F.fin 1)], hsc,
      List.Perm.swap (1, F.fin 1) (0, F.fin 1) [], by simp [SortedDesc, F.ble], rfl⟩,
    by decide⟩

/-! ## Helper lemmas: cosine evaluation -/

theorem sumsq_nonneg (l : List ℚ) : 0 ≤ (l.map (fun x => x * x)).sum := by
  apply List.sum_nonneg
  intro x hx
  obtain ⟨y, -, rfl⟩ := List.mem_map.mp hx
  exact mul_self_nonneg y

theorem sumsq_eq_zero {l : List ℚ} (h : (l.map (fun x => x * x)).sum = 0) :
    ∀ x ∈ l, x = 0 := by
  induction l with
  | nil => simp
  | cons a t ih =>
    simp only [List.map_cons, List.sum_cons] at h
    obtain ⟨ha, ht⟩ :=
      (add_eq_zero_iff_of_nonneg (mul_self_nonneg a) (sumsq_nonneg t)).mp h
    intro x hx
    rcases List.mem_cons.mp hx with rfl | hx'
    · exact mul_self_eq_zero.mp ha
    · exact ih ht x hx'

theorem ratSqrt_zero : ratSqrt 0 = 0 := by
  norm_num [ratSqrt, natSqrtLin]

/-- The model's range reduction maps zero to zero. -/
theorem fround_zero : fround 0 = F.fin 0 := by
  simp [fround]

/-- A nonnegative finite value or `+inf` — the shape of every partial
sum of squares the cosine loop accumulates (never NaN, never `-inf`). -/
def NonnegF (m : F) : Prop :=
  m = F.inf ∨ ∃ r : ℚ, 0 ≤ r ∧ m = F.fin r

theorem fround_nonneg {q : ℚ} (hq : 0 ≤ q) : NonnegF (fround q) := by
  unfold fround
  split_ifs with h1 h2 h3 h4
  · exact Or.inr ⟨0, le_refl 0, rfl⟩
  · exact Or.inl rfl
  · exfalso
    have hpos : (0 : ℚ) < 2 ^ 128 - 2 ^ 103 := by norm_num
    linarith
  · exact Or.inr ⟨0, le_refl 0, rfl⟩
  · exact Or.inr ⟨q, hq, rfl⟩

theorem NonnegF_add {x y : F} (hx : NonnegF x) (hy : NonnegF y) :
    NonnegF (x.add y) := by
  rcases hx with rfl | ⟨r, hr, rfl⟩ <;> rcases hy with rfl | ⟨s, hs, rfl⟩
  · exact Or.inl rfl
  · exact Or.inl rfl
  · exact Or.inl rfl
  · simpa [F.add] using fround_nonneg (add_nonneg hr hs)

theorem NonnegF_sq (y : ℚ) : NonnegF ((F.fin y).mul (F.fin y)) := by
  simpa [F.mul] using fround_nonneg (mul_self_nonneg y)

/-- The cosine loop over pairs whose first components are all zero:
`dot` and `na` stay exactly zero, and `nb` stays a nonnegative value or
`+inf` (the other vector's squares may overflow, but cannot produce NaN
inside the loop). -/
theorem cosineLoop_fst_zero :
    ∀ (ps : List (ℚ × ℚ)), (∀ p ∈ ps, p.1 = 0) → ∀ m : F, NonnegF m →
      ∃ m', (ps.map (fun p => (F.fin p.1, F.fin p.2))).foldl
          (fun acc p =>
            (acc.1.add (p.1.mul p.2), acc.2.1.add (p.1.mul p.1),
              acc.2.2.add (p.2.mul p.2)))
          (F.fin 0, F.fin 0, m) = (F.fin 0, F.fin 0, m') ∧ NonnegF m' := by
  intro ps
  induction ps with
  | nil => exact fun _ m hm => ⟨m, rfl, hm⟩
  | cons p ps ih =>
    intro h m hm
    obtain ⟨x, y⟩ := p
    have hx : x = 0 := h (x, y) (List.mem_cons_self _ _)
    subst hx
    simp only [List.map_cons, List.foldl_cons]
    have h1 : (F.fin 0).add ((F.fin 0).mul (F.fin y)) = F.fin 0 := by
      simp [F.add, F.mul, fround]
    have h2 : (F.fin 0).add ((F.fin 0).mul (F.fin 0)) = F.fin 0 := by
      simp [F.add, F.mul, fround]
    rw [h1, h2]
    exact ih (fun p hp => h p (List.mem_cons_of_mem _ hp)) _
      (NonnegF_add hm (NonnegF_sq y))

/-- Symmetric loop invariant: second components all zero. -/
theorem cosineLoop_snd_zero :
    ∀ (ps : List (ℚ × ℚ)), (∀ p ∈ ps, p.2 = 0) → ∀ m : F, NonnegF m →
      ∃ m', (ps.map (fun p => (F.fin p.1, F.fin p.2))).foldl
          (fun acc p =>
            (acc.1.add (p.1.mul p.2), acc.2.1.add (p.1.mul p.1),
              acc.2.2.add (p.2.mul p.2)))
          (F.fin 0, m, F.fin 0) = (F.fin 0, m', F.fin 0) ∧ NonnegF m' := by
  intro ps
  induction ps with
  | nil => exact fun _ m hm => ⟨m, rfl, hm⟩
  | cons p ps ih =>
    intro h m hm
    obtain ⟨x, y⟩ := p
    have hy : y = 0 := h (x, y) (List.mem_cons_self _ _)
    subst hy
    simp only [List.map_cons, List.foldl_cons]
    have h1 : (F.fin 0).add ((F.fin x).mul (F.fin 0)) = F.fin 0 := by
      simp [F.add, F.mul, fround]
    have h2 : (F.fin 0).add ((F.fin 0).mul (F.fin 0)) = F.fin 0 := by
      simp [F.add, F.mul, fround]
    rw [h1, h2]
    exact ih (fun p hp => h p (List.mem_cons_of_mem _ hp)) _
      (NonnegF_add hm (NonnegF_sq x))

/-- For equal-dimension vectors, a zero sum of squares on either side
makes `cosine` evaluate to NaN: the zero-norm side zeroes the dot
product and its own square root, and the result is `0/0` — or
`0 * inf` inside the denominator when the other side overflows — both
NaN. -/
theorem cosine_zero_norm (a b : List ℚ) (hlen : a.length = b.length)
    (h : (a.map (fun x => x * x)).sum = 0 ∨ (b.map (fun x => x * x)).sum = 0) :
    cosine (a.map F.fin) (b.map F.fin) = some F.nan := by
  unfold cosine
  rw [if_pos (by simp [hlen])]
  have hz : (a.map F.fin).zip (b.map F.fin) =
      (a.zip b).map (fun p => (F.fin p.1, F.fin p.2)) := by
    rw [List.zip_map]
    rfl
  rw [hz]
  unfold cosineLoop
  rcases h with h | h
  · have hz1 : ∀ p ∈ a.zip b, p.1 = 0 := by
      intro p hp
      obtain ⟨x, y⟩ := p
      exact sumsq_eq_zero h x (List.of_mem_zip hp).1
    obtain ⟨m', hfold, hm'⟩ :=
      cosineLoop_fst_zero (a.zip b) hz1 (F.fin 0) (Or.inr ⟨0, le_refl 0, rfl⟩)
    rw [hfold]
    rcases hm' with rfl | ⟨r, hr, rfl⟩
    · simp [F.sqrt, F.mul, F.div, ratSqrt_zero]
    · simp [F.sqrt, F.mul, F.div, ratSqrt_zero, not_lt.mpr hr, fround_zero]
  · have hz2 : ∀ p ∈ a.zip b, p.2 = 0 := by
      intro p hp
      obtain ⟨x, y⟩ := p
      exact sumsq_eq_zero h y (List.of_mem_zip hp).2
    obtain ⟨m', hfold, hm'⟩ :=
      cosineLoop_snd_zero (a.zip b) hz2 (F.fin 0) (Or.inr ⟨0, le_refl 0, rfl⟩)
    rw [hfold]
    rcases hm' with rfl | ⟨r, hr, rfl⟩
    · simp [F.sqrt, F.mul, F.div, ratSqrt_zero]
    · simp [F.sqrt, F.mul, F.div, ratSqrt_zero, not_lt.mpr hr, fround_zero]

/-! ## Claim C10 -/

/-- No sorted permutation — hence no admissible `search` result — exists
when at least two scores are NaN: the model's rendering of the sort
comparator's `unwrap` panic. -/
theorem no_sorted_perm_of_nan {idx : Index} {q : List F} {S : List (ℕ × F)}
    (hscored : idx.scored q = some S) (hS2 : 2 ≤ S.length)
    (hnan : ∀ p ∈ S, p.2 = F.nan) (k : ℕ) :
    ¬ ∃ L, idx.SearchResult q k L := by
  rintro ⟨L, S', P, hS', hperm, hsort, -⟩
  rw [hscored, Option.some.injEq] at hS'
  subst hS'
  have hplen : 2 ≤ P.length := hperm.length_eq ▸ hS2
  obtain ⟨x, y, rest, hxy⟩ : ∃ x y rest, P = x :: y :: rest := by
    cases P with
    | nil => simp at hplen
    | cons x P' =>
      cases P' with
      | nil => simp at hplen
      | cons y rest => exact ⟨x, y, rest, rfl⟩
  subst hxy
  have hx : x ∈ S := hperm.mem_iff.mpr (List.mem_cons_self _ _)
  have hR : F.ble y.2 x.2 = true := (List.chain'_cons.mp hsort).1
  rw [hnan x hx, F.ble_nan_right] at hR
  cases hR

/-- C10, counterexample.  Nonzero norm and equal dimension do not make
the comparator's `unwrap` unreachable: with query and both stored
embeddings `[2^100]` (nonzero norm, dimension 1), each square `2^200`
overflows to `+inf`, so `cosine` computes `inf / (inf * inf) =
inf / inf = NaN` for every entry, and no admissible `search` result
exists — the sort panics despite the claimed precondition.  (Underflow
is the dual failure: `[2^-100]` squares to `2^-200`, which rounds to
zero, giving `0/0 = NaN`.) -/
theorem search_nonzero_norm_panics_counterexample :
    (([(2 : ℚ) ^ 100].map (fun x => x * x)).sum ≠ 0 ∧
      (∀ e ∈ (Index.new [] [[F.fin (2 ^ 100)], [F.fin (2 ^ 100)]]).embeddings,
        ∃ l : List ℚ, e = l.map F.fin ∧ l.length = 1 ∧
          (l.map (fun x => x * x)).sum ≠ 0)) ∧
    ¬ ∃ L, (Index.new [] [[F.fin (2 ^ 100)], [F.fin (2 ^ 100)]]).SearchResult
        ([(2 : ℚ) ^ 100].map F.fin) 2 L := by
  constructor
  · constructor
    · norm_num
    · intro e he
      rw [show (Index.new [] [[F.fin (2 ^ 100)], [F.fin (2 ^ 100)]]).embeddings =
          [[F.fin (2 ^ 100)], [F.fin (2 ^ 100)]] from rfl] at he
      rcases List.mem_cons.mp he with rfl | he'
      · exact ⟨[2 ^ 100], rfl, rfl, by norm_num⟩
      · rw [List.mem_singleton.mp he']
        exact ⟨[2 ^ 100], rfl, rfl, by norm_num⟩
  · have hsc : (Index.new [] [[F.fin (2 ^ 100)], [F.fin (2 ^ 100)]]).scored
        ([(2 : ℚ) ^ 100].map F.fin) = some [(0, F.nan), (1, F.nan)] := by
      norm_num [Index.scored, Index.new, scoreAll, cosine, cosineLoop, F.add,
        F.mul, F.div, F.sqrt, fround, List.enum, List.enumFrom]
    exact no_sorted_perm_of_nan hsc (by decide) (by decide) 2

/-- C10, amended: the comparator's `partial_cmp(..).unwrap()` panics
exactly on NaN scores — `pcmp` is `none` iff a side is NaN — and a
zero-norm query or embedding (of equal dimension) forces a NaN score;
but nonzero norm is *not* sufficient to rule NaN out (f32 overflow or
underflow of the squared sums still produces NaN, see the
counterexample).  The unwrap branch is unreachable and `search` total
precisely under the stronger precondition that scoring succeeded with
every score non-NaN. -/
theorem search_panic_free_of_no_nan_scores :
    (∀ x : F, F.pcmp F.nan x = none ∧ F.pcmp x F.nan = none) ∧
    (∀ a b : List ℚ, a.length = b.length →
      ((a.map (fun x => x * x)).sum = 0 ∨ (b.map (fun x => x * x)).sum = 0) →
      cosine (a.map F.fin) (b.map F.fin) = some F.nan) ∧
    (∀ (idx : Index) (q : List F) (k : ℕ) (S : List (ℕ × F)),
      idx.scored q = some S → (∀ p ∈ S, p.2 ≠ F.nan) →
      idx.SearchSafe q ∧ ∃ L, idx.SearchResult q k L) := by
  refine ⟨?_, cosine_zero_norm, ?_⟩
  · intro x
    exact ⟨by cases x <;> rfl, by cases x <;> rfl⟩
  · intro idx q k S hS hn
    exact ⟨⟨S, hS, fun x hx y hy => F.pcmp_ne_none (hn x hx) (hn y hy)⟩,
      searchResult_exists k hS hn⟩

/-- C10, witness for the amended theorem: a NaN comparison is undefined;
a zero vector against a unit vector scores NaN; a one-entry index whose
single score is 1 is safe and searchable. -/
theorem search_panic_free_of_no_nan_scores_witness :
    (F.pcmp F.nan (F.fin 0) = none ∧ F.pcmp (F.fin 0) F.nan = none) ∧
    cosine ([(0 : ℚ)].map F.fin) ([(1 : ℚ)].map F.fin) = some F.nan ∧
    ((Index.new [] [[F.fin 1]]).SearchSafe [F.fin 1] ∧
      ∃ L, (Index.new [] [[F.fin 1]]).SearchResult [F.fin 1] 3 L) := by
  have hsc : (Index.new [] [[F.fin 1]]).scored [F.fin 1] = some [(0, F.fin 1)] := by
    norm_num [Index.scored, Index.new, scoreAll, cosine, cosineLoop, F.add, F.mul,
      F.div, F.sqrt, ratSqrt, natSqrtLin, fround, List.enum, List.enumFrom]
  exact ⟨search_panic_free_of_no_nan_scores.1 (F.fin 0),
    search_panic_free_of_no_nan_scores.2.1 [0] [1] rfl (Or.inl (by norm_num)),
    search_panic_free_of_no_nan_scores.2.2 (Index.new [] [[F.fin 1]]) [F.fin 1] 3
      [(0, F.fin 1)] hsc (by decide)⟩

/-! ## Claim C6 -/

/-- A one-chunk fixture. -/
def chunkC : Chunk :=
  { id := ((['a'], ['b']), ['c']), doc_id := (['a'], ['b']),
    text := ['c'], chunk_type := "paragraph", char_count := 1 }

/-- C6, counterexample.  The claim says `Index::new` fails on a length
mismatch rather than silently constructing.  The constructor has no
validation: one chunk with zero embeddings constructs successfully, and
the constructed index violates `chunks.len() == embeddings.len()`. -/
theorem index_new_mismatch_counterexample :
    (Index.new [chunkC] []).chunks.length ≠ (Index.new [chunkC] []).embeddings.length := by
  decide

/-- C6, amended: `Index::new` performs no validation at all — it always
constructs, storing both vectors verbatim (any length mismatch is
silently tolerated and left as the caller's obligation). -/
theorem index_new_unvalidated (chunks : List Chunk) (embeddings : List (List F)) :
    (Index.new chunks embeddings).chunks = chunks ∧
    (Index.new chunks embeddings).embeddings = embeddings :=
  ⟨rfl, rfl⟩

/-! ## Claim C7 -/

/-- C7, counterexample.  The claim says a nonexistent root yields a
`RootNotFound` error before any per-file work.  `grab_all_documents`
returns a plain `Vec<Document>` — there is no error channel, and
`RAGError` (error.rs) has no `RootNotFound` variant.  The walk of a
nonexistent root yields a single error item, which `entry.ok()?`
silently discards: the collector succeeds with an empty document list. -/
theorem grab_documents_missing_root_counterexample :
    grab_all_documents [WalkEntry.err] = [] := by
  rfl

/-- C7, amended: a walk yielding only error items (as for a nonexistent
root) makes the collector return the empty list successfully — walk
errors are skipped silently, never surfaced as a run-level failure. -/
theorem grab_documents_err_entries_skipped (walk : List WalkEntry)
    (h : ∀ we ∈ walk, we = WalkEntry.err) : grab_all_documents walk = [] := by
  induction walk with
  | nil => rfl
  | cons we rest ih =>
    have hwe := h we (List.mem_cons_self we rest)
    subst hwe
    have hrest := ih (fun we' h' => h we' (List.mem_cons_of_mem _ h'))
    simpa [grab_all_documents, List.filterMap_cons] using hrest

/-- C7, witness for the amended theorem. -/
theorem grab_documents_err_entries_skipped_witness :
    (∀ we ∈ [WalkEntry.err], we = WalkEntry.err) ∧
    grab_all_documents [WalkEntry.err] = [] :=
  ⟨by decide, grab_documents_err_entries_skipped [WalkEntry.err] (by decide)⟩

/-! ## Claim C8 -/

/-- C8, counterexample.  Out-of-range `retrieve` is the slice
index-out-of-bounds panic, not a returned `RAGError::InvalidIndex` (that
variant exists in error.rs but nothing constructs it — `retrieve`'s
signature `&Chunk` has no error channel). -/
theorem retrieve_out_of_range_counterexample :
    (Index.new [] []).retrieve 0 = RetrieveOutcome.panicked ∧
    (Index.new [] []).retrieve 0 ≠ RetrieveOutcome.failed (RAGError.InvalidIndex 0) := by
  decide

/-- C8, amended: for `idx ≥ n`, `retrieve` panics (slice indexing) — it
does not fail with `RAGError::InvalidIndex`; for `idx < n` it returns
`chunks[idx]`. -/
theorem retrieve_panics_out_of_range (idx : Index) (i : ℕ) :
    (idx.chunks.length ≤ i → idx.retrieve i = RetrieveOutcome.panicked) ∧
    ∀ h : i < idx.chunks.length,
      idx.retrieve i = RetrieveOutcome.found (idx.chunks.get ⟨i, h⟩) := by
  constructor
  · intro h
    unfold Index.retrieve
    rw [List.get?_eq_none.mpr h]
  · intro h
    unfold Index.retrieve
    rw [List.get?_eq_get h]

/-- C8, witness for the amended theorem on a one-chunk index. -/
theorem retrieve_panics_out_of_range_witness :
    ((Index.new [chunkC] []).chunks.length ≤ 1 ∧
      (Index.new [chunkC] []).retrieve 1 = RetrieveOutcome.panicked) ∧
    (0 < (Index.new [chunkC] []).chunks.length ∧
      (Index.new [chunkC] []).retrieve 0 =
        RetrieveOutcome.found ((Index.new [chunkC] []).chunks.get ⟨0, by decide⟩)) :=
  ⟨⟨by decide, (retrieve_panics_out_of_range (Index.new [chunkC] []) 1).1 (by decide)⟩,
   ⟨by decide, (retrieve_panics_out_of_range (Index.new [chunkC] []) 0).2 (by decide)⟩⟩

/-! ## Claim C9 -/

/-- An entry for a file named `A.RS` (uppercase extension). -/
def entryUpper : DirEntry :=
  { isFile := true, relPath := "A.RS".toList, fileName := "A.RS".toList,
    content := some ['y'], meta := some 1 }

/-- C9, counterexample.  The claim says the stored ext is lowercase (a
file named `A.RS` yields ext `"rs"`).  `load_document` performs no case
normalisation: the stored ext is `"RS"`. -/
theorem document_ext_lowercase_counterexample :
    (load_document entryUpper).map Document.ext = some "RS".toList ∧
    "RS".toList ≠ "rs".toList := by
  decide

theorem pathExtension_no_dot {name ext : List Char}
    (h : pathExtension name = some ext) : '.' ∉ ext := by
  simp only [pathExtension] at h
  split at h
  · cases h
  · split at h
    · cases h
    · rw [Option.some.injEq] at h
      subst h
      intro hmem
      rw [List.mem_reverse] at hmem
      have := List.mem_takeWhile_imp hmem
      simp at this

/-- C9, amended: the stored ext is the file's extension verbatim (no
case normalisation); it contains no dot (in particular no leading dot),
and a file with no extension yields the empty string. -/
theorem document_ext_verbatim (e : DirEntry) (d : Document)
    (h : load_document e = some d) :
    d.ext = (pathExtension e.fileName).getD [] ∧
    '.' ∉ d.ext ∧
    (pathExtension e.fileName = none → d.ext = []) := by
  have hext : d.ext = (pathExtension e.fileName).getD [] := by
    cases hf : e.isFile with
    | false => simp [load_document, hf] at h
    | true =>
      cases hc : e.content with
      | none => simp [load_document, hf, hc] at h
      | some text =>
        cases hm : e.meta with
        | none => simp [load_document, hf, hc, hm] at h
        | some size =>
          simp only [load_document, hf, hc, hm, Bool.not_true, Bool.false_eq_true,
            if_false, Option.some.injEq] at h
          rw [← h]
  refine ⟨hext, ?_, ?_⟩
  · rw [hext]
    cases hp : pathExtension e.fileName with
    | none => simp
    | some s => simpa using pathExtension_no_dot hp
  · intro hp
    rw [hext, hp]
    rfl

/-- An entry for a file named `a.rs`. -/
def entryLower : DirEntry :=
  { isFile := true, relPath := "a.rs".toList, fileName := "a.rs".toList,
    content := some ['y'], meta := some 1 }

/-- The document `load_document` produces for `entryLower`. -/
def docLower : Document :=
  { id := ("a.rs".toList, ['y']), path := "a.rs".toList, text := ['y'],
    ext := "rs".toList, size := 1 }

/-- C9, witness for the amended theorem. -/
theorem document_ext_verbatim_witness :
    load_document entryLower = some docLower ∧
    (docLower.ext = (pathExtension entryLower.fileName).getD [] ∧
     '.' ∉ docLower.ext ∧
     (pathExtension entryLower.fileName = none → docLower.ext = [])) :=
  ⟨by decide, document_ext_verbatim entryLower docLower (by decide)⟩

end Wubrag
